import Mathlib

/-!
Shallow embedding of the AOCS validation engine (the `aocs` CLI core):
configuration loading and schema checking (`src/cli/src/core/config.js`,
bundled with `rules.js`), the reporter (`src/cli/src/core/reporter.js`),
the rule registry (`src/cli/src/core/rules.js`, `src/languages/*.js`),
the file scanner (`src/core/scanner.js`), the forbidden-pattern check
(`src/checks/forbidden.js`) and the orchestrator `validate`
(`src/index.js`).

JavaScript runtime behaviour that the engine relies on (truthiness,
property access on `null` throwing a `TypeError`, `Array.prototype`
helpers, per-line regular-expression tests) is modelled explicitly.
Exceptions are modelled with `Except String`; a thrown error is
`Except.error msg`.
-/

namespace Aocs

/-! ## Data model -/

/-- A single reported non-compliance: `{file?, line?, message}`. -/
structure Violation where
  file : Option String := none
  line : Option Nat := none
  message : String
deriving DecidableEq, Repr

/-- One result record per executed rule: `{id, name, level, violations}`. -/
structure ResultRecord where
  id : String
  name : String
  level : String
  violations : List Violation
deriving DecidableEq, Repr

/-- The counts returned by the reporter. -/
structure Counts where
  passed : Nat
  failed : Nat
  warnings : Nat
deriving DecidableEq, Repr

/-- The summary object returned by `validate`: the counts of the reporter
spread together with the full result list. -/
structure Summary where
  passed : Nat
  failed : Nat
  warnings : Nat
  results : List ResultRecord
deriving DecidableEq, Repr

/-! ## Reporter (`src/cli/src/core/reporter.js`)

`report` tallies the records with three mutable counters; the
`console.log` side effects carry no data and are dropped from the
model. -/

/-- One iteration of the `for (const result of results)` loop in
`report`. -/
def reportStep (c : Counts) (r : ResultRecord) : Counts :=
  if r.level = "error" then
    if r.violations.length > 0 then { c with failed := c.failed + 1 }
    else { c with passed := c.passed + 1 }
  else if r.level = "warn" then
    if r.violations.length > 0 then { c with warnings := c.warnings + 1 }
    else c
  else c

/-- The function report(results) from reporter.js: fold the counter update over
the record list starting from zero counters. -/
def report (results : List ResultRecord) : Counts :=
  results.foldl reportStep ⟨0, 0, 0⟩

theorem report_foldl (c : Counts) (l : List ResultRecord) :
    l.foldl reportStep c =
      ⟨c.passed + l.countP (fun r => decide (r.level = "error" ∧ r.violations = [])),
       c.failed + l.countP (fun r => decide (r.level = "error" ∧ r.violations ≠ [])),
       c.warnings + l.countP (fun r => decide (r.level = "warn" ∧ r.violations ≠ []))⟩ := by
  induction l generalizing c with
  | nil => simp
  | cons r rest ih =>
    simp only [List.foldl_cons, ih, List.countP_cons]
    unfold reportStep
    rcases c with ⟨p, f, w⟩
    by_cases h1 : r.level = "error" <;> by_cases h2 : r.violations = [] <;>
      by_cases h3 : r.level = "warn" <;>
      simp_all [List.length_pos, Nat.add_assoc, Nat.add_comm, Nat.add_left_comm]

theorem countP_error_split (l : List ResultRecord) :
    l.countP (fun r => decide (r.level = "error" ∧ r.violations = [])) +
      l.countP (fun r => decide (r.level = "error" ∧ r.violations ≠ [])) =
      l.countP (fun r => decide (r.level = "error")) := by
  induction l with
  | nil => simp
  | cons r rest ih =>
    simp only [List.countP_cons]
    by_cases h1 : r.level = "error" <;> by_cases h2 : r.violations = [] <;>
      simp_all <;> omega

/-! ## JavaScript value model

The contract file is parsed with `JSON.parse` and then inspected as a
plain JavaScript object, so the behaviour of the loader depends on JS
truthiness and property-access semantics. -/

/-- A JavaScript value as produced by `JSON.parse` (plus `undefined`,
which property access can produce). Numbers are modelled as integers;
no schema constraint of the loader distinguishes non-integral numbers. -/
inductive JsValue where
  | nullV : JsValue
  | undefinedV : JsValue
  | bool (b : Bool) : JsValue
  | num (n : Int) : JsValue
  | str (s : String) : JsValue
  | arr (elems : List JsValue) : JsValue
  | obj (fields : List (String × JsValue)) : JsValue

/-- JS truthiness: `null`, `undefined`, `false`, `0` and `""` are falsy;
every array and object is truthy. -/
def truthy : JsValue → Bool
  | .nullV => false
  | .undefinedV => false
  | .bool b => b
  | .num n => n != 0
  | .str s => s != ""
  | .arr _ => true
  | .obj _ => true

def JsValue.isNull : JsValue → Bool
  | .nullV => true
  | _ => false

def JsValue.isUndefined : JsValue → Bool
  | .undefinedV => true
  | _ => false

/-- JS Array.isArray. -/
def JsValue.isArr : JsValue → Bool
  | .arr _ => true
  | _ => false

/-- Property lookup on the field list of an object (JSON objects have
effectively unique keys: `JSON.parse` keeps the last duplicate, so the
field lists of parsed objects are key-unique). -/
def lookupProp (fields : List (String × JsValue)) (k : String) : Option JsValue :=
  fields.lookup k

/-- Total property access `v[k]` for values on which JS does not throw:
objects yield the field or `undefined`; other primitives and arrays have
none of the looked-up properties, yielding `undefined`. Callers must
guard `null`/`undefined` (on which JS throws) before using this. -/
def getPropT (v : JsValue) (k : String) : JsValue :=
  match v with
  | .obj fields => (lookupProp fields k).getD .undefinedV
  | _ => .undefinedV

/-- JS includes on a list of string literals (strict-equality
membership), so only a string value can match. -/
def jsIncludesStr (opts : List String) (v : JsValue) : Bool :=
  match v with
  | .str s => opts.contains s
  | _ => false

/-- JS for-of iteration: arrays iterate their elements, strings iterate
their characters, everything else throws a `TypeError`. -/
def jsIterate (v : JsValue) : Except String (List JsValue) :=
  match v with
  | .arr xs => .ok xs
  | .str s => .ok (s.toList.map fun c => .str (String.singleton c))
  | _ => .error "TypeError: value is not iterable"

/-- JS toLowerCase: defined on strings (ASCII lowering; every key of
the language tables is ASCII), a `TypeError` on anything else. -/
def jsToLowerCase (v : JsValue) : Except String String :=
  match v with
  | .str s => .ok (String.mk (s.toList.map Char.toLower))
  | _ => .error "TypeError: lang.toLowerCase is not a function"

/-- JS string conversion as used by an array join on the invalid-roles
list: inside a join, `null`/`undefined` become empty strings, arrays
recursively join with `,`, objects print as `[object Object]`. -/
def jsJoinPiece : JsValue → String
  | .nullV => ""
  | .undefinedV => ""
  | .bool b => if b then "true" else "false"
  | .num n => toString n
  | .str s => s
  | .arr xs => String.intercalate "," (xs.attach.map fun x => jsJoinPiece x.1)
  | .obj _ => "[object Object]"
decreasing_by
  have := List.sizeOf_lt_of_mem x.2
  simp only [JsValue.arr.sizeOf_spec]
  omega

/-- JS list.join with a separator. -/
def jsJoin (sep : String) (xs : List JsValue) : String :=
  String.intercalate sep (xs.map jsJoinPiece)

/-- Blank characters of the regex whitespace class and of trim (ASCII
subset; file content in the model is ASCII-oriented). -/
def isWsChar (c : Char) : Bool :=
  c = ' ' || c = '\t' || c = '\n' || c = '\r' || c = '\x0b' || c = '\x0c'

/-- Identifier start class of the implicit-global regex. -/
def isIdentStartChar (c : Char) : Bool :=
  c.isAlpha || c = '_' || c = '$'

/-- Identifier continuation class of the implicit-global regex. -/
def isIdentChar (c : Char) : Bool :=
  c.isAlphanum || c = '_' || c = '$'

/-- Elements of an array value (used only after an Array.isArray
guard). -/
def JsValue.arrElems : JsValue → List JsValue
  | .arr xs => xs
  | _ => []

/-- The length property of an array value. -/
def JsValue.arrLength : JsValue → Nat
  | .arr xs => xs.length
  | _ => 0

/-! ## Config loader (`loadConfig`, bundled in `src/cli/src/core/rules.js`)

The on-disk state of `aocs.json` is abstracted as `RawContract`: the
read can fail (file missing), the parse can fail (invalid JSON), or the
parse yields a `JsValue`. -/

/-- Outcome of reading and parsing the contract file at
`<projectPath>/aocs.json`. -/
inductive RawContract where
  | missing : RawContract
  | unparsable (errMessage : String) : RawContract
  | parsed (v : JsValue) : RawContract

/-- The closed set of canonical role names. -/
def validRoles : List String :=
  ["pure-logic", "state-machine", "adapter", "ui-binding", "io-boundary", "config"]

/-! Schema validation of the parsed contract, lines 100-151 of the
loader: a sequence of condition checks, each appending its own error
string to the running list, in source order. Each source if-block is
one step function threading the running `errors` list. The caller
guarantees the value is not `null`/`undefined` (property access on
those would have thrown before validation started). -/

/-- Required field aocsVersion: falsy means missing. -/
def aocsVersionStep (config : JsValue) (errors : List String) : List String :=
  if !truthy (getPropT config "aocsVersion") then
    errors ++ ["aocs.json missing required field: aocsVersion"]
  else errors

/-- Required field languages: missing, then non-array, then empty. -/
def languagesStep (config : JsValue) (errors : List String) : List String :=
  if !truthy (getPropT config "languages") then
    errors ++ ["aocs.json missing required field: languages"]
  else if !(getPropT config "languages").isArr then
    errors ++ ["aocs.json: languages must be an array"]
  else if (getPropT config "languages").arrLength = 0 then
    errors ++ ["aocs.json: languages array cannot be empty"]
  else errors

/-- Required field mode: missing, then outside the lite/strict enum. -/
def modeStep (config : JsValue) (errors : List String) : List String :=
  if !truthy (getPropT config "mode") then
    errors ++ ["aocs.json missing required field: mode"]
  else if !jsIncludesStr ["lite", "strict"] (getPropT config "mode") then
    errors ++ ["aocs.json: mode must be \x22lite\x22 or \x22strict\x22"]
  else errors

/-- An optional enum field: present (truthy) but outside its closed
value set. -/
def enumFieldStep (config : JsValue) (field : String) (allowed : List String)
    (msg : String) (errors : List String) : List String :=
  if truthy (getPropT config field) &&
      !jsIncludesStr allowed (getPropT config field) then
    errors ++ [msg]
  else errors

/-- An optional array field: present (truthy) but not an array. -/
def arrayFieldStep (config : JsValue) (field : String) (msg : String)
    (errors : List String) : List String :=
  if truthy (getPropT config field) && !(getPropT config field).isArr then
    errors ++ [msg]
  else errors

/-- Optional roles field: non-array, else filter the names outside the
closed role set and report them joined. -/
def rolesStep (config : JsValue) (errors : List String) : List String :=
  if truthy (getPropT config "roles") && !(getPropT config "roles").isArr then
    errors ++ ["aocs.json: roles must be an array"]
  else if truthy (getPropT config "roles") then
    let invalidRoles := (getPropT config "roles").arrElems.filter
      (fun r => !jsIncludesStr validRoles r)
    if invalidRoles.length > 0 then
      errors ++ ["aocs.json: invalid roles: " ++ jsJoin ", " invalidRoles]
    else errors
  else errors

def modulePatternMsg : String :=
  "aocs.json: modulePattern must be one of: agent-module, traditional, hybrid"

def stateOwnershipMsg : String :=
  "aocs.json: stateOwnership must be one of: local-only, shared-explicit, global-allowed"

def sideEffectsMsg : String :=
  "aocs.json: sideEffects must be one of: explicit, implicit-allowed"

def namingSchemaMsg : String :=
  "aocs.json: namingSchema must be one of: verbNoun, nounVerb, free"

/-- Schema validation: the ten checks of the loader applied in source
order to an initially empty error list. -/
def schemaErrors (config : JsValue) : List String :=
  rolesStep config
    (arrayFieldStep config "forbiddenPatterns" "aocs.json: forbiddenPatterns must be an array"
      (arrayFieldStep config "allowedPatterns" "aocs.json: allowedPatterns must be an array"
        (enumFieldStep config "namingSchema" ["verbNoun", "nounVerb", "free"] namingSchemaMsg
          (enumFieldStep config "sideEffects" ["explicit", "implicit-allowed"] sideEffectsMsg
            (enumFieldStep config "stateOwnership" ["local-only", "shared-explicit", "global-allowed"] stateOwnershipMsg
              (enumFieldStep config "modulePattern" ["agent-module", "traditional", "hybrid"] modulePatternMsg
                (modeStep config
                  (languagesStep config
                    (aocsVersionStep config [])))))))))

/-- The function loadConfig(projectPath) from the config loader. The
`parsed null` case models the uncaught `TypeError` the loader hits on
its first property access (`config.aocsVersion`) when the file parses
to `null`: nothing in the loader or in `validate` catches it. -/
def loadConfig (projectPath : String) (raw : RawContract) :
    Except String (JsValue × List String) :=
  match raw with
  | .missing =>
      .ok (.nullV, ["aocs.json not found at " ++ (projectPath ++ "/aocs.json")])
  | .unparsable m =>
      .ok (.nullV, ["aocs.json contains invalid JSON: " ++ m])
  | .parsed v =>
      if v.isNull || v.isUndefined then
        .error "TypeError: Cannot read properties of null (reading aocsVersion)"
      else
        .ok (v, schemaErrors v)

/-! Per-constraint error lists, one definition per schema field, used to
state that `schemaErrors` accumulates every violated constraint
independently. -/

/-- Error produced for the required field aocsVersion alone. -/
def aocsVersionErrs (config : JsValue) : List String :=
  aocsVersionStep config []

/-- Errors produced for the required field languages alone. -/
def languagesErrs (config : JsValue) : List String :=
  languagesStep config []

/-- Errors produced for the required field mode alone. -/
def modeErrs (config : JsValue) : List String :=
  modeStep config []

/-- Error produced for an optional enum field alone. -/
def enumFieldErrs (config : JsValue) (field : String) (allowed : List String)
    (msg : String) : List String :=
  enumFieldStep config field allowed msg []

/-- Error produced for an optional array field alone. -/
def arrayFieldErrs (config : JsValue) (field : String) (msg : String) : List String :=
  arrayFieldStep config field msg []

/-- Errors produced for the optional roles field alone. -/
def rolesErrs (config : JsValue) : List String :=
  rolesStep config []

theorem aocsVersionStep_eq (v : JsValue) (l : List String) :
    aocsVersionStep v l = l ++ aocsVersionErrs v := by
  unfold aocsVersionErrs aocsVersionStep
  by_cases h : truthy (getPropT v "aocsVersion") <;> simp [h]

theorem languagesStep_eq (v : JsValue) (l : List String) :
    languagesStep v l = l ++ languagesErrs v := by
  unfold languagesErrs languagesStep
  by_cases h1 : truthy (getPropT v "languages") <;>
    by_cases h2 : (getPropT v "languages").isArr = true <;>
    by_cases h3 : (getPropT v "languages").arrLength = 0 <;>
    simp [h1, h2, h3]

theorem modeStep_eq (v : JsValue) (l : List String) :
    modeStep v l = l ++ modeErrs v := by
  unfold modeErrs modeStep
  by_cases h1 : truthy (getPropT v "mode") <;>
    by_cases h2 : jsIncludesStr ["lite", "strict"] (getPropT v "mode") = true <;>
    simp [h1, h2]

theorem enumFieldStep_eq (v : JsValue) (f : String) (allowed : List String)
    (msg : String) (l : List String) :
    enumFieldStep v f allowed msg l = l ++ enumFieldErrs v f allowed msg := by
  unfold enumFieldErrs enumFieldStep
  by_cases h : (truthy (getPropT v f) && !jsIncludesStr allowed (getPropT v f)) = true <;>
    simp [h]

theorem arrayFieldStep_eq (v : JsValue) (f : String) (msg : String) (l : List String) :
    arrayFieldStep v f msg l = l ++ arrayFieldErrs v f msg := by
  unfold arrayFieldErrs arrayFieldStep
  by_cases h : (truthy (getPropT v f) && !(getPropT v f).isArr) = true <;> simp [h]

theorem rolesStep_eq (v : JsValue) (l : List String) :
    rolesStep v l = l ++ rolesErrs v := by
  unfold rolesErrs rolesStep
  by_cases h1 : (truthy (getPropT v "roles") && !(getPropT v "roles").isArr) = true <;>
    by_cases h2 : truthy (getPropT v "roles") <;>
    by_cases h3 : ((getPropT v "roles").arrElems.filter
      (fun r => !jsIncludesStr validRoles r)).length > 0 <;>
    by_cases h4 : (getPropT v "roles").isArr = false <;>
    simp [h1, h2, h3, h4]

/-- `schemaErrors` is the concatenation of the ten per-field error
lists, in source order: no violated constraint suppresses any other. -/
theorem schemaErrors_accumulates (v : JsValue) :
    schemaErrors v =
      aocsVersionErrs v ++ languagesErrs v ++ modeErrs v ++
      enumFieldErrs v "modulePattern" ["agent-module", "traditional", "hybrid"] modulePatternMsg ++
      enumFieldErrs v "stateOwnership" ["local-only", "shared-explicit", "global-allowed"] stateOwnershipMsg ++
      enumFieldErrs v "sideEffects" ["explicit", "implicit-allowed"] sideEffectsMsg ++
      enumFieldErrs v "namingSchema" ["verbNoun", "nounVerb", "free"] namingSchemaMsg ++
      arrayFieldErrs v "allowedPatterns" "aocs.json: allowedPatterns must be an array" ++
      arrayFieldErrs v "forbiddenPatterns" "aocs.json: forbiddenPatterns must be an array" ++
      rolesErrs v := by
  unfold schemaErrors
  rw [rolesStep_eq, arrayFieldStep_eq, arrayFieldStep_eq, enumFieldStep_eq,
    enumFieldStep_eq, enumFieldStep_eq, enumFieldStep_eq, modeStep_eq,
    languagesStep_eq, aocsVersionStep_eq]
  simp [List.append_assoc]

/-! ## Rule registry (`src/cli/src/core/rules.js`, `src/languages/*.js`)

A rule descriptor is the static (id, name, level) triple; the check
functions run at execution time and are modelled by outcomes at the
orchestrator level. -/

/-- Static rule descriptor. -/
structure Rule where
  id : String
  name : String
  level : String
deriving DecidableEq, Repr

/-- The fixed ordered list of universal rules. -/
def universalRules : List Rule :=
  [⟨"U8-repo-contract", "Repository contract (aocs.json) exists and valid", "error"⟩,
   ⟨"U13-agent-readme", "Agent README exists and ≤200 tokens", "warn"⟩,
   ⟨"U9-file-roles", "File roles declared (AOCS-ROLE)", "error"⟩,
   ⟨"U2-contracts", "Function contracts (@contract)", "error"⟩,
   ⟨"U10-hints", "Structured hints well-formed", "warn"⟩,
   ⟨"U12-forbidden", "Forbidden patterns not present", "error"⟩,
   ⟨"U1-module-manifest", "Module manifests (@module)", "warn"⟩]

/-- The single JavaScript-specific rule (languages/javascript.js). -/
def javascriptRules : List Rule :=
  [⟨"JS1-state-manifest", "State manifests for state-machine files", "warn"⟩]

/-- The single HTML-specific rule (languages/html.js). -/
def htmlRules : List Rule :=
  [⟨"HTML1-interactive-ids", "Interactive elements have id or data-action", "warn"⟩]

/-- The single CSS-specific rule (languages/css.js). -/
def cssRules : List Rule :=
  [⟨"CSS1-design-tokens", "Design tokens defined in :root", "warn"⟩]

/-- The languageModules lookup table of languages/index.js. -/
def languageModules : List (String × List Rule) :=
  [("javascript", javascriptRules),
   ("js", javascriptRules),
   ("typescript", javascriptRules),
   ("ts", javascriptRules),
   ("html", htmlRules),
   ("css", cssRules)]

/-- One iteration of the languages loop of loadLanguageRules: lower the
name (a TypeError on non-strings) and push the rules of a known
language. -/
def langRuleStep (acc : List Rule) (lang : JsValue) : Except String (List Rule) := do
  let s ← jsToLowerCase lang
  match languageModules.lookup s with
  | some langRules => pure (acc ++ langRules)
  | none => pure acc

/-- The function loadLanguageRules(config) of languages/index.js: guard
falsy config or falsy languages, then push the rule set of each declared
language (lowercased) in order, skipping unknown names. The for-of
iteration and toLowerCase can throw on non-array languages values or
non-string language entries. -/
def loadLanguageRules (config : JsValue) : Except String (List Rule) :=
  if !truthy config || !truthy (getPropT config "languages") then
    .ok []
  else do
    let langs ← jsIterate (getPropT config "languages")
    langs.foldlM langRuleStep []

/-! ## File scanner (`src/core/scanner.js`) -/

/-- The language-to-extensions table of the scanner. -/
def langExtMap : List (String × List String) :=
  [("javascript", [".js", ".mjs", ".cjs"]),
   ("js", [".js", ".mjs", ".cjs"]),
   ("typescript", [".ts", ".tsx"]),
   ("ts", [".ts", ".tsx"]),
   ("python", [".py"]),
   ("html", [".html", ".htm"]),
   ("css", [".css"]),
   ("go", [".go"]),
   ("rust", [".rs"]),
   ("java", [".java"])]

/-- The fixed directory deny-list of the scanner. -/
def skipDirs : List String :=
  ["node_modules", ".git", "dist", "build", "coverage", ".next", "out"]

/-- JS substring containment (String.prototype.includes). -/
def strContains (s pat : String) : Bool :=
  s.toList.tails.any (fun t => pat.toList.isPrefixOf t)

/-- JS String.prototype.startsWith. -/
def strStartsWith (s pat : String) : Bool :=
  pat.toList.isPrefixOf s.toList

/-- JS String.prototype.endsWith. -/
def strEndsWith (s pat : String) : Bool :=
  pat.toList.isSuffixOf s.toList

/-- JS String.prototype.split with the newline separator: split at
every newline, keeping empty parts (the split of the empty string is
one empty part). -/
def splitLines : List Char → List String
  | [] => [""]
  | c :: cs =>
    let rest := splitLines cs
    if c = '\n' then "" :: rest
    else
      match rest with
      | [] => [String.mk [c]]
      | r :: rs => String.mk (c :: r.toList) :: rs

/-- JS String.prototype.trim: strip blanks from both ends. -/
def jsTrim (s : String) : List Char :=
  ((s.toList.dropWhile isWsChar).reverse.dropWhile isWsChar).reverse

/-- Node path.join for one segment: the scanner only ever joins a
directory path with an entry name. -/
def pathJoin (dir name : String) : String :=
  dir ++ "/" ++ name

/-- Node path.extname on a base name: the suffix from the last dot,
empty when there is no dot or the only dot starts the name. -/
def extname (name : String) : String :=
  let cs := name.toList
  let tailLen := (cs.reverse.takeWhile (fun c => c ≠ '.')).length
  if tailLen = cs.length then ""
  else
    let dotIdx := cs.length - tailLen - 1
    if dotIdx = 0 then "" else ⟨cs.drop dotIdx⟩

mutual

/-- A directory entry as seen by readdir with file types. `unreadable`
is a directory whose own readdir call fails: the catch in walkDir turns
the recursive scan of it into an empty contribution. -/
inductive FsEntry where
  | file (name : String) : FsEntry
  | dir (name : String) (entries : FsEntries) : FsEntry
  | unreadable (name : String) : FsEntry

/-- A readdir listing, in directory order. -/
inductive FsEntries where
  | nil : FsEntries
  | cons (e : FsEntry) (rest : FsEntries) : FsEntries

end

/-- Build a listing from a plain list of entries. -/
def FsEntries.ofList : List FsEntry → FsEntries
  | [] => .nil
  | e :: es => .cons e (FsEntries.ofList es)

mutual

/-- The recursive walkDir(dir, extensions) of the scanner, one
directory-entry list at a time. -/
def walkDir (dirPath : String) (entries : FsEntries) (extensions : List String) :
    List String :=
  match entries with
  | .nil => []
  | .cons e rest => walkEntry dirPath e extensions ++ walkDir dirPath rest extensions

/-- One iteration of the entries loop in walkDir: prune test-fixture
paths and deny-listed or hidden directory names before recursing, skip
minified file names, keep files whose extension is wanted. -/
def walkEntry (dirPath : String) (e : FsEntry) (extensions : List String) :
    List String :=
  match e with
  | .dir name sub =>
      let fullPath := pathJoin dirPath name
      if strContains fullPath "/test/fixtures/" ||
          strContains fullPath "\x5ctest\x5cfixtures\x5c" then
        []
      else if !skipDirs.contains name && !strStartsWith name "." then
        walkDir fullPath sub extensions
      else []
  | .unreadable name =>
      let fullPath := pathJoin dirPath name
      if strContains fullPath "/test/fixtures/" ||
          strContains fullPath "\x5ctest\x5cfixtures\x5c" then
        []
      else if !skipDirs.contains name && !strStartsWith name "." then
        []
      else []
  | .file name =>
      if strEndsWith name ".min.js" || strEndsWith name ".min.css" then []
      else if extensions.contains (extname name) then [pathJoin dirPath name]
      else []

end

/-- The insertion-order extension set: Set.add for each extension of a
recognized language. -/
def addExts (acc : List String) (es : List String) : List String :=
  es.foldl (fun a e => if a.contains e then a else a ++ [e]) acc

/-- One iteration of the languages loop of scanFiles: lower the name
(a TypeError on non-strings) and add the extensions of a known language
to the insertion-order set. -/
def extCollectStep (acc : List String) (lang : JsValue) : Except String (List String) := do
  let s ← jsToLowerCase lang
  match langExtMap.lookup s with
  | some es => pure (addExts acc es)
  | none => pure acc

/-- The function scanFiles(projectPath, config) of the scanner: falsy
config or languages yield no files; otherwise collect the extension set
over the declared languages (unknown names contribute nothing) and walk
the project tree. -/
def scanFiles (projectPath : String) (config : JsValue) (tree : FsEntries) :
    Except String (List String) :=
  if !truthy config || !truthy (getPropT config "languages") then
    .ok []
  else do
    let langs ← jsIterate (getPropT config "languages")
    let extensions ← langs.foldlM extCollectStep []
    if extensions.length = 0 then pure []
    else pure (walkDir projectPath tree extensions)

/-! ## Forbidden-pattern check (`src/checks/forbidden.js`)

The four regular expressions of patternCheckers are tested one line at
a time, so each is modelled as a Boolean line matcher. Character
classes: ident start [a-zA-Z_$], ident [a-zA-Z0-9_$], whitespace for
the regex class of blank characters. -/

/-- Match a literal character sequence at the head, returning the
rest. -/
def dropLit : List Char → List Char → Option (List Char)
  | [], cs => some cs
  | _ :: _, [] => none
  | p :: ps, c :: cs => if c = p then dropLit ps cs else none

/-- The implicit-global regex, anchored at line start: an identifier,
optional blanks, one equals sign, then (after optional blanks) a
character that is not an equals sign. Since the character classes are
disjoint, maximal munch is exact; the trailing part matches exactly
when a character follows the equals sign and the first such character
is not another equals sign. -/
def matchesImplicitGlobal (line : String) : Bool :=
  match line.toList with
  | [] => false
  | c :: rest =>
    if isIdentStartChar c then
      let r1 := rest.dropWhile isIdentChar
      let r2 := r1.dropWhile isWsChar
      match r2 with
      | '=' :: r3 =>
        match r3 with
        | [] => false
        | d :: _ => d ≠ '='
      | _ => false
    else false

/-- The literal eval followed by optional blanks and an opening
parenthesis, at a given position. -/
def evalCallAt (cs : List Char) : Bool :=
  match dropLit "eval".toList cs with
  | some rest =>
    match rest.dropWhile isWsChar with
    | '(' :: _ => true
    | _ => false
  | none => false

/-- The literal new, at least one blank, Function, optional blanks, an
opening parenthesis, at a given position. -/
def newFunctionCallAt (cs : List Char) : Bool :=
  match dropLit "new".toList cs with
  | some rest =>
    if (rest.takeWhile isWsChar).length > 0 then
      match dropLit "Function".toList (rest.dropWhile isWsChar) with
      | some rest2 =>
        match rest2.dropWhile isWsChar with
        | '(' :: _ => true
        | _ => false
      | none => false
    else false
  | none => false

/-- The dynamic-eval regex: an eval call or a Function-constructor call
anywhere in the line. -/
def matchesDynamicEval (line : String) : Bool :=
  line.toList.tails.any (fun t => evalCallAt t || newFunctionCallAt t)

/-- The dynamic-import regex: the word for a dynamic module load,
optional blanks, an opening parenthesis, anywhere in the line. -/
def importCallAt (cs : List Char) : Bool :=
  match dropLit "import".toList cs with
  | some rest =>
    match rest.dropWhile isWsChar with
    | '(' :: _ => true
    | _ => false
  | none => false

def matchesDynamicImport (line : String) : Bool :=
  line.toList.tails.any importCallAt

/-- The reflection regex: a Reflect member access or the
defineProperty call, anywhere in the line. -/
def matchesReflection (line : String) : Bool :=
  strContains line "Reflect." || strContains line "Object.defineProperty"

/-- One entry of the patternCheckers table: a line matcher, a message,
and the warn flag (present in the source but never read by
checkForbidden). -/
structure Checker where
  pattern : String → Bool
  message : String
  warn : Bool := false

/-- The patternCheckers table of forbidden.js. -/
def patternCheckers : List (String × Checker) :=
  [("dynamic-eval",
    ⟨matchesDynamicEval, "Dynamic eval or Function constructor detected", false⟩),
   ("dynamic-import",
    ⟨matchesDynamicImport, "Dynamic import() detected", false⟩),
   ("reflection",
    ⟨matchesReflection, "Reflection API usage detected", false⟩),
   ("implicit-global",
    ⟨matchesImplicitGlobal, "Possible implicit global assignment (use const/let/var)", true⟩)]

/-- The comment-line test of the lines loop: the trimmed line starts
with a line comment, a block-comment opener, or a block-comment
continuation star. -/
def isCommentLine (line : String) : Bool :=
  "//".toList.isPrefixOf (jsTrim line) || "/*".toList.isPrefixOf (jsTrim line) ||
    "*".toList.isPrefixOf (jsTrim line)

/-- Node path.relative for the only shape the checks use: the file path
sits under the project path, so the project prefix is stripped. -/
def relativeTo (base p : String) : String :=
  if (base ++ "/").toList.isPrefixOf p.toList then p.drop (base.length + 1) else p

/-- The inner lines loop for one file and one checker: line numbers are
one-based, comment lines are skipped, each matching line appends one
violation carrying the message of the checker. -/
def patternViolationsAux (relFile : String) (ck : Checker) (lineNo : Nat) :
    List String → List Violation
  | [] => []
  | l :: ls =>
    (if !isCommentLine l && ck.pattern l then
      [⟨some relFile, some lineNo, ck.message⟩]
    else []) ++ patternViolationsAux relFile ck (lineNo + 1) ls

def patternViolations (relFile : String) (ck : Checker) (lines : List String) :
    List Violation :=
  patternViolationsAux relFile ck 1 lines

/-- One iteration of the patterns loop: an unknown pattern appends a
deduplicated no-checker warning; a known checker appends the violations
of its lines scan. The state is the (violations, warnings) pair the
check accumulates across all files and patterns. -/
def processPattern (relFile : String) (lines : List String)
    (st : List Violation × List Violation) (pat : String) :
    List Violation × List Violation :=
  match patternCheckers.lookup pat with
  | none =>
    let warnMsg := "No checker for forbidden pattern: " ++ pat
    if st.2.any (fun w => w.message ≠ "" && strContains w.message warnMsg) then st
    else (st.1, st.2 ++ [{ message := warnMsg }])
  | some ck =>
    (st.1 ++ patternViolations relFile ck lines, st.2)

/-- One iteration of the files loop: an unreadable file is skipped by
the catch; a readable one is split into lines and scanned per declared
pattern. The filesystem is modelled by readFileF (none = read throws). -/
def processFile (projectPath : String) (fps : List String)
    (readFileF : String → Option String)
    (st : List Violation × List Violation) (file : String) :
    List Violation × List Violation :=
  match readFileF file with
  | none => st
  | some content =>
    fps.foldl (processPattern (relativeTo projectPath file) (splitLines content.toList)) st

/-- The script-like extensions the check scans. -/
def jsExtensions : List String :=
  [".js", ".mjs", ".cjs", ".ts", ".tsx"]

/-- The function checkForbidden(projectPath, config, files): the config
argument is represented by its forbiddenPatterns field, none standing
for a falsy config or a falsy field (the early return). Returns the
(violations, warnings) pair. -/
def checkForbidden (projectPath : String) (forbiddenPatterns : Option (List String))
    (files : List String) (readFileF : String → Option String) :
    List Violation × List Violation :=
  match forbiddenPatterns with
  | none => ([], [])
  | some fps =>
    let jsFiles := files.filter (fun f => jsExtensions.contains (extname f))
    jsFiles.foldl (processFile projectPath fps readFileF) ([], [])

/-! ## Orchestrator (`validate` in `src/index.js`)

The outcome of one invocation of a check function inside the per-rule
try block: either it throws, or it returns an object whose violations
and warnings keys may each be absent. -/

inductive CheckResult where
  | thrown (msg : String) : CheckResult
  | ok (violations : Option (List Violation)) (warnings : Option (List Violation)) :
      CheckResult

/-- The body of the rules loop of validate for one rule: on a throw,
one error record with the single check-failed violation; on a return,
the primary entry (violations defaulted to the empty array) plus, when
warnings are present and non-empty, the derived warn record. -/
def entriesFor (rule : Rule) : CheckResult → List ResultRecord
  | .thrown m =>
    [⟨rule.id, rule.name, "error", [{ message := "Check failed: " ++ m }]⟩]
  | .ok vs ws =>
    let entry : ResultRecord := ⟨rule.id, rule.name, rule.level, vs.getD []⟩
    match ws with
    | some w =>
      if w.length > 0 then
        [entry, ⟨rule.id ++ "-warnings", rule.name ++ " (warnings)", "warn", w⟩]
      else [entry]
    | none => [entry]

/-- The rules loop of validate: each (rule, outcome) pair contributes
its entries to the results list, in order. -/
def runRules (pairs : List (Rule × CheckResult)) : List ResultRecord :=
  pairs.flatMap (fun p => entriesFor p.1 p.2)

/-- The options argument of validate (accepted, never consulted by the
core loop). -/
structure Options where
  fix : Bool := false

/-- The external state one run of validate observes: the contract file,
the project tree, and the outcome each check invocation would produce
(keyed by rule id, since every check is called with the same three
arguments). -/
structure World where
  contract : RawContract
  tree : FsEntries
  checkOutcome : String → CheckResult

/-- The entry point validate(projectPath, options): load the config;
on errors short-circuit with the single synthetic config-load record;
otherwise scan files, assemble universal plus language rules, run the
isolated rules loop, and return the report counts spread with the
results. Exceptions propagate as Except.error. -/
def validate (projectPath : String) (options : Options) (w : World) :
    Except String Summary :=
  match loadConfig projectPath w.contract with
  | .error e => .error e
  | .ok (config, errors) =>
    if errors.length > 0 then
      let configResult : ResultRecord :=
        ⟨"config-load", "Configuration loading", "error",
         errors.map (fun e => { message := e })⟩
      let summary := report [configResult]
      .ok ⟨summary.passed, summary.failed, summary.warnings, [configResult]⟩
    else
      match scanFiles projectPath config w.tree with
      | .error e => .error e
      | .ok _files =>
        match loadLanguageRules config with
        | .error e => .error e
        | .ok langRules =>
          let rules := universalRules ++ langRules
          let results := runRules (rules.map fun r => (r, w.checkOutcome r.id))
          let summary := report results
          .ok ⟨summary.passed, summary.failed, summary.warnings, results⟩

/-! ## Library lemmas about the rules loop -/

theorem runRules_append (xs ys : List (Rule × CheckResult)) :
    runRules (xs ++ ys) = runRules xs ++ runRules ys := by
  simp [runRules]

theorem runRules_cons (p : Rule × CheckResult) (ps : List (Rule × CheckResult)) :
    runRules (p :: ps) = entriesFor p.1 p.2 ++ runRules ps := by
  simp [runRules]

theorem entriesFor_length_pos (r : Rule) (c : CheckResult) :
    1 ≤ (entriesFor r c).length := by
  cases c with
  | thrown m => simp [entriesFor]
  | ok vs ws =>
    cases ws with
    | none => simp [entriesFor]
    | some w =>
      by_cases h : w.length > 0 <;> simp [entriesFor, h]

theorem length_le_runRules_length (l : List (Rule × CheckResult)) :
    l.length ≤ (runRules l).length := by
  induction l with
  | nil => simp [runRules]
  | cons p ps ih =>
    rw [runRules_cons]
    simp only [List.length_cons, List.length_append]
    have := entriesFor_length_pos p.1 p.2
    omega

/-! ## Claim theorems -/

/-- Claim C2: if the check of one rule throws while every other pair of
the rules loop is unchanged, the loop still emits the entries of every
rule: the run splits around the throwing rule, whose sole entry has
level error and exactly one violation embedding the thrown description;
every other rule contributes exactly the entries its own outcome
dictates (so they are identical to a run in which the throwing rule had
any other outcome), and there is at least one entry per rule. -/
theorem rule_crash_isolated (pre post : List (Rule × CheckResult)) (r : Rule) (m : String) :
    runRules (pre ++ (r, CheckResult.thrown m) :: post) =
      runRules pre ++
        ⟨r.id, r.name, "error", [⟨none, none, "Check failed: " ++ m⟩]⟩ :: runRules post ∧
    (∀ c : CheckResult, runRules (pre ++ (r, c) :: post) =
      runRules pre ++ (entriesFor r c ++ runRules post)) ∧
    pre.length + 1 + post.length ≤ (runRules (pre ++ (r, CheckResult.thrown m) :: post)).length := by
  refine ⟨?_, ?_, ?_⟩
  · rw [runRules_append, runRules_cons]
    simp [entriesFor]
  · intro c
    rw [runRules_append, runRules_cons]
  · rw [runRules_append, runRules_cons]
    simp only [List.length_append, entriesFor]
    have h1 := length_le_runRules_length pre
    have h2 := length_le_runRules_length post
    simp only [List.length_cons, List.length_singleton]
    omega

/-- Claim C6: a rule whose check returns non-empty violations and
non-empty warnings contributes exactly two consecutive records to the
results of the rules loop: the primary record with the declared level
of the rule carrying only the violations, and a synthetic record with
the id of the rule suffixed -warnings, a derived name, fixed level
warn, carrying only the warnings. -/
theorem rule_with_warnings_two_records (pre post : List (Rule × CheckResult))
    (r : Rule) (vs ws : List Violation) (hv : vs ≠ []) (hw : ws ≠ []) :
    runRules (pre ++ (r, CheckResult.ok (some vs) (some ws)) :: post) =
      runRules pre ++
        ⟨r.id, r.name, r.level, vs⟩ ::
          ⟨r.id ++ "-warnings", r.name ++ " (warnings)", "warn", ws⟩ :: runRules post := by
  rw [runRules_append, runRules_cons]
  have hlen : ws.length > 0 := List.length_pos.mpr hw
  simp [entriesFor, hlen]

theorem rule_with_warnings_two_records_witness :
    runRules [(⟨"r1", "Rule one", "error"⟩,
        CheckResult.ok (some [⟨none, none, "v1"⟩]) (some [⟨none, none, "w1"⟩]))] =
      [⟨"r1", "Rule one", "error", [⟨none, none, "v1"⟩]⟩,
       ⟨"r1-warnings", "Rule one (warnings)", "warn", [⟨none, none, "w1"⟩]⟩] := by
  have h := rule_with_warnings_two_records [] [] ⟨"r1", "Rule one", "error"⟩
    [⟨none, none, "v1"⟩] [⟨none, none, "w1"⟩] (by simp) (by simp)
  simpa using h

/-- Claim C5: the counts of the reporter tally the records exactly:
failed counts the error records with non-empty violations, passed the
error records with empty violations, warnings the warn records with
non-empty violations (an empty warn record counts nowhere), and passed
plus failed equals the number of error records. -/
theorem reporter_counts (l : List ResultRecord) :
    (report l).failed = l.countP (fun r => decide (r.level = "error" ∧ r.violations ≠ [])) ∧
    (report l).passed = l.countP (fun r => decide (r.level = "error" ∧ r.violations = [])) ∧
    (report l).warnings = l.countP (fun r => decide (r.level = "warn" ∧ r.violations ≠ [])) ∧
    (report l).passed + (report l).failed = l.countP (fun r => decide (r.level = "error")) := by
  unfold report
  rw [report_foldl]
  refine ⟨by simp, by simp, by simp, ?_⟩
  simpa using countP_error_split l

/-- Claim C3: for a project with no contract file at all, validate
returns the full summary shape with exactly one synthetic config-load
error record, one failure, no passes and no warnings — independently of
the project tree and of every check outcome, so no scan result and no
rule outcome can influence the short-circuit. -/
theorem missing_contract_short_circuits (projectPath : String) (options : Options)
    (tree : FsEntries) (outcome : String → CheckResult) :
    validate projectPath options ⟨RawContract.missing, tree, outcome⟩ =
      .ok ⟨0, 1, 0,
        [⟨"config-load", "Configuration loading", "error",
          [{ message := "aocs.json not found at " ++ (projectPath ++ "/aocs.json") }]⟩]⟩ := rfl

/-- Claim C1 (code-bug evidence): a project whose aocs.json contains
the JSON document null parses successfully, after which the first
property access of the loader throws a TypeError that nothing catches:
validate propagates an exception instead of returning a summary,
contradicting the throws-never annotations of both functions. -/
theorem validate_throws_on_null_contract :
    validate "p" {}
        ⟨RawContract.parsed JsValue.nullV, FsEntries.nil, fun _ => CheckResult.ok none none⟩ =
      .error "TypeError: Cannot read properties of null (reading aocsVersion)" := rfl

/-- Claim C8 (code-bug evidence): the scanner excludes deny-listed,
hidden and minified entries, but the test-fixture filter only prunes
directories whose full path already contains a slash-terminated
test/fixtures segment — a file sitting directly inside a test/fixtures
directory is still returned. -/
theorem scanner_returns_fixture_file :
    scanFiles "proj" (JsValue.obj [("languages", JsValue.arr [JsValue.str "javascript"])])
        (FsEntries.ofList
          [FsEntry.dir "node_modules" (FsEntries.ofList [FsEntry.file "x.js"]),
           FsEntry.dir ".hidden" (FsEntries.ofList [FsEntry.file "h.js"]),
           FsEntry.file "vendor.min.js",
           FsEntry.dir "test" (FsEntries.ofList
             [FsEntry.dir "fixtures" (FsEntries.ofList [FsEntry.file "evil.js"])])]) =
      .ok ["proj/test/fixtures/evil.js"] := rfl

/-- Claim C4: for every contract file parsing to a non-null value, the
loader completes with the parsed value and the accumulated error list:
one separate message per violated constraint — the three required
fields and each present optional field outside its closed set — in
source order, never stopping at the first violation. -/
theorem loadConfig_accumulates (projectPath : String) (v : JsValue)
    (h1 : v.isNull = false) (h2 : v.isUndefined = false) :
    loadConfig projectPath (RawContract.parsed v) =
      .ok (v,
        aocsVersionErrs v ++ languagesErrs v ++ modeErrs v ++
        enumFieldErrs v "modulePattern" ["agent-module", "traditional", "hybrid"]
          modulePatternMsg ++
        enumFieldErrs v "stateOwnership" ["local-only", "shared-explicit", "global-allowed"]
          stateOwnershipMsg ++
        enumFieldErrs v "sideEffects" ["explicit", "implicit-allowed"] sideEffectsMsg ++
        enumFieldErrs v "namingSchema" ["verbNoun", "nounVerb", "free"] namingSchemaMsg ++
        arrayFieldErrs v "allowedPatterns" "aocs.json: allowedPatterns must be an array" ++
        arrayFieldErrs v "forbiddenPatterns" "aocs.json: forbiddenPatterns must be an array" ++
        rolesErrs v) := by
  unfold loadConfig
  simp [h1, h2, schemaErrors_accumulates]

theorem loadConfig_accumulates_witness :
    (JsValue.obj []).isNull = false ∧ (JsValue.obj []).isUndefined = false ∧
    loadConfig "p" (RawContract.parsed (JsValue.obj [])) =
      .ok (JsValue.obj [],
        ["aocs.json missing required field: aocsVersion",
         "aocs.json missing required field: languages",
         "aocs.json missing required field: mode"]) :=
  ⟨rfl, rfl, (loadConfig_accumulates "p" (JsValue.obj []) rfl rfl).trans rfl⟩

/-- Claim C7 (counterexample): the declared languages javascript and ts
both map to the JavaScript rule list, so the single JavaScript rule
appears twice in the returned list — the lookup concatenates per
declared name and never deduplicates, refuting at-most-once
membership. -/
theorem loadLanguageRules_duplicate_rule :
    loadLanguageRules (JsValue.obj [("languages",
        JsValue.arr [JsValue.str "javascript", JsValue.str "ts"])]) =
      .ok (javascriptRules ++ javascriptRules) ∧
    1 < (javascriptRules ++ javascriptRules).count
        ⟨"JS1-state-manifest", "State manifests for state-machine files", "warn"⟩ :=
  ⟨rfl, by decide⟩

theorem langRuleStep_str (acc : List Rule) (s : String) :
    langRuleStep acc (JsValue.str s) =
      .ok (acc ++ (languageModules.lookup (String.mk (s.toList.map Char.toLower))).getD []) := by
  simp only [String.toList]
  cases hlk : languageModules.lookup (String.mk (s.data.map Char.toLower)) <;>
    simp [langRuleStep, jsToLowerCase, hlk, Bind.bind, Except.bind, pure, Except.pure,
      String.toList]

theorem langRules_fold (ss : List String) (acc : List Rule) :
    List.foldlM langRuleStep acc (ss.map JsValue.str) =
      .ok (acc ++ ss.flatMap (fun s =>
        (languageModules.lookup (String.mk (s.toList.map Char.toLower))).getD [])) := by
  induction ss generalizing acc with
  | nil => simp [pure, Except.pure]
  | cons s rest ih =>
    simp only [List.map_cons, List.foldlM_cons, langRuleStep_str, List.flatMap_cons]
    rw [show ∀ (x : List Rule) (f : List Rule → Except String (List Rule)),
      (Except.ok x : Except String (List Rule)) >>= f = f x from fun x f => rfl]
    rw [ih, List.append_assoc]

/-- Claim C7 (amended): for a configuration whose languages field is an
array of strings, the language-rule lookup returns the concatenation of
the rule lists registered for each declared name in order — a rule list
appears once per declared name that maps to it, so it can repeat —
and unknown names contribute nothing and raise no error. -/
theorem loadLanguageRules_concat (fields : List (String × JsValue)) (ss : List String)
    (h : lookupProp fields "languages" = some (JsValue.arr (ss.map JsValue.str))) :
    loadLanguageRules (JsValue.obj fields) =
      .ok (ss.flatMap (fun s =>
        (languageModules.lookup (String.mk (s.toList.map Char.toLower))).getD [])) := by
  have hget : getPropT (JsValue.obj fields) "languages" =
      JsValue.arr (ss.map JsValue.str) := by
    simp [getPropT, h]
  unfold loadLanguageRules
  rw [hget]
  simp only [truthy, jsIterate]
  rw [show ∀ (x : List JsValue) (f : List JsValue → Except String (List Rule)),
    (Except.ok x : Except String (List JsValue)) >>= f = f x from fun x f => rfl]
  exact (langRules_fold ss []).trans (by rw [List.nil_append])

theorem loadLanguageRules_concat_witness :
    lookupProp [("languages", JsValue.arr [JsValue.str "javascript", JsValue.str "html"])]
        "languages" = some (JsValue.arr (["javascript", "html"].map JsValue.str)) ∧
    loadLanguageRules (JsValue.obj [("languages",
        JsValue.arr [JsValue.str "javascript", JsValue.str "html"])]) =
      .ok (["javascript", "html"].flatMap (fun s =>
        (languageModules.lookup (String.mk (s.toList.map Char.toLower))).getD [])) :=
  ⟨rfl, loadLanguageRules_concat _ ["javascript", "html"] rfl⟩

/-! Well-formedness of the records validate emits (claim C9). -/

/-- A rule descriptor with a non-empty id and name and a recognized
level. -/
def wellFormedRule (r : Rule) : Prop :=
  r.id ≠ "" ∧ r.name ≠ "" ∧ (r.level = "error" ∨ r.level = "warn")

instance (r : Rule) : Decidable (wellFormedRule r) := by
  unfold wellFormedRule
  infer_instance

theorem append_ne_empty (s t : String) (ht : t.data ≠ []) : s ++ t ≠ "" := by
  intro h
  have hd : s.data ++ t.data = [] := by
    rw [show s.data ++ t.data = (s ++ t).data from rfl, h]
  exact ht (List.append_eq_nil.mp hd).2

theorem universalRules_wf : ∀ r ∈ universalRules, wellFormedRule r := by decide

theorem lookup_mem {β : Type} (k : String) (v : β) :
    ∀ l : List (String × β), List.lookup k l = some v → (k, v) ∈ l := by
  intro l
  induction l with
  | nil => intro h; simp [List.lookup] at h
  | cons p rest ih =>
    obtain ⟨k', v'⟩ := p
    intro h
    simp only [List.lookup] at h
    cases hbe : (k == k') with
    | true =>
      rw [hbe] at h
      injection h with h'
      subst h'
      have hk : k = k' := beq_iff_eq.mp hbe
      subst hk
      exact List.mem_cons_self _ _
    | false =>
      rw [hbe] at h
      exact List.mem_cons_of_mem _ (ih h)

theorem langTable_wf (s : String) (rs : List Rule)
    (h : languageModules.lookup s = some rs) : ∀ r ∈ rs, wellFormedRule r := by
  have hmem := lookup_mem s rs languageModules h
  simp only [languageModules, List.mem_cons, List.not_mem_nil, or_false,
    Prod.mk.injEq] at hmem
  rcases hmem with ⟨_, h'⟩ | ⟨_, h'⟩ | ⟨_, h'⟩ | ⟨_, h'⟩ | ⟨_, h'⟩ | ⟨_, h'⟩ <;>
    subst h' <;> decide

theorem langRuleStep_wf (acc acc2 : List Rule) (x : JsValue)
    (hacc : ∀ r ∈ acc, wellFormedRule r)
    (h : langRuleStep acc x = .ok acc2) : ∀ r ∈ acc2, wellFormedRule r := by
  unfold langRuleStep at h
  cases x with
  | str s =>
    simp only [jsToLowerCase] at h
    rw [show ∀ (y : String) (f : String → Except String (List Rule)),
      (Except.ok y : Except String String) >>= f = f y from fun y f => rfl] at h
    cases hlk : languageModules.lookup (String.mk (s.toList.map Char.toLower)) with
    | none =>
      rw [hlk] at h
      injection h with h'
      subst h'
      exact hacc
    | some rs =>
      rw [hlk] at h
      injection h with h'
      subst h'
      intro r hr
      rcases List.mem_append.mp hr with hmem | hmem
      · exact hacc r hmem
      · exact langTable_wf _ rs hlk r hmem
  | nullV => simp [jsToLowerCase, Bind.bind, Except.bind] at h
  | undefinedV => simp [jsToLowerCase, Bind.bind, Except.bind] at h
  | bool b => simp [jsToLowerCase, Bind.bind, Except.bind] at h
  | num n => simp [jsToLowerCase, Bind.bind, Except.bind] at h
  | arr xs => simp [jsToLowerCase, Bind.bind, Except.bind] at h
  | obj fs => simp [jsToLowerCase, Bind.bind, Except.bind] at h

theorem langRules_fold_wf (items : List JsValue) :
    ∀ acc rs : List Rule, (∀ r ∈ acc, wellFormedRule r) →
      List.foldlM langRuleStep acc items = .ok rs → ∀ r ∈ rs, wellFormedRule r := by
  induction items with
  | nil =>
    intro acc rs hacc h
    simp only [List.foldlM_nil] at h
    injection h with h'
    subst h'
    exact hacc
  | cons x xs ih =>
    intro acc rs hacc h
    rw [List.foldlM_cons] at h
    cases hstep : langRuleStep acc x with
    | error e =>
      rw [hstep] at h
      simp [Bind.bind, Except.bind] at h
    | ok acc2 =>
      rw [hstep] at h
      rw [show (Except.ok acc2 >>= fun a => List.foldlM langRuleStep a xs) =
        List.foldlM langRuleStep acc2 xs from rfl] at h
      exact ih acc2 rs (langRuleStep_wf acc acc2 x hacc hstep) h

theorem loadLanguageRules_wf (config : JsValue) (rs : List Rule)
    (h : loadLanguageRules config = .ok rs) : ∀ r ∈ rs, wellFormedRule r := by
  unfold loadLanguageRules at h
  by_cases hc : (!truthy config || !truthy (getPropT config "languages")) = true
  · rw [if_pos hc] at h
    injection h with h'
    subst h'
    simp
  · rw [if_neg hc] at h
    cases hit : jsIterate (getPropT config "languages") with
    | error e =>
      rw [hit] at h
      simp [Bind.bind, Except.bind] at h
    | ok items =>
      rw [hit] at h
      rw [show (Except.ok items >>= fun langs => List.foldlM langRuleStep [] langs) =
        List.foldlM langRuleStep [] items from rfl] at h
      exact langRules_fold_wf items [] rs (by simp) h

/-- A record with a non-empty id and name and a recognized level. -/
def wellFormedRecord (rec : ResultRecord) : Prop :=
  rec.id ≠ "" ∧ rec.name ≠ "" ∧ (rec.level = "error" ∨ rec.level = "warn")

theorem entriesFor_wf (r : Rule) (c : CheckResult) (hr : wellFormedRule r) :
    ∀ rec ∈ entriesFor r c, wellFormedRecord rec := by
  obtain ⟨hid, hname, hlevel⟩ := hr
  intro rec hrec
  cases c with
  | thrown m =>
    simp only [entriesFor, List.mem_singleton] at hrec
    subst hrec
    exact ⟨hid, hname, Or.inl rfl⟩
  | ok vs ws =>
    cases ws with
    | none =>
      simp only [entriesFor, List.mem_singleton] at hrec
      subst hrec
      exact ⟨hid, hname, hlevel⟩
    | some w =>
      by_cases hw : w.length > 0
      · simp only [entriesFor, if_pos hw, List.mem_cons, List.mem_singleton,
          List.not_mem_nil, or_false] at hrec
        rcases hrec with h' | h' <;> subst h'
        · exact ⟨hid, hname, hlevel⟩
        · exact ⟨append_ne_empty _ _ (by decide), append_ne_empty _ _ (by decide),
            Or.inr rfl⟩
      · simp only [entriesFor, if_neg hw, List.mem_singleton] at hrec
        subst hrec
        exact ⟨hid, hname, hlevel⟩

theorem runRules_wf (pairs : List (Rule × CheckResult))
    (h : ∀ p ∈ pairs, wellFormedRule p.1) :
    ∀ rec ∈ runRules pairs, wellFormedRecord rec := by
  intro rec hrec
  rw [runRules, List.mem_flatMap] at hrec
  obtain ⟨p, hp, hrecp⟩ := hrec
  exact entriesFor_wf p.1 p.2 (h p hp) rec hrecp

/-- Claim C9: whenever validate returns a summary, every record in its
results list has a non-empty id, a non-empty name and a level that is
either error or warn (every declared rule level is one of these, crash
and config records use error, synthetic warning records use warn); and
the primary entry built for a check that returned no violations key
substitutes the empty violation array. -/
theorem validate_results_well_formed (projectPath : String) (options : Options)
    (w : World) (s : Summary) (h : validate projectPath options w = .ok s) :
    (∀ rec ∈ s.results, rec.id ≠ "" ∧ rec.name ≠ "" ∧
      (rec.level = "error" ∨ rec.level = "warn")) ∧
    (∀ (r : Rule) (ws : Option (List Violation)),
      (entriesFor r (CheckResult.ok none ws)).head? =
        some ⟨r.id, r.name, r.level, []⟩) := by
  constructor
  · unfold validate at h
    cases hlc : loadConfig projectPath w.contract with
    | error e => rw [hlc] at h; simp at h
    | ok pair =>
      obtain ⟨config, errors⟩ := pair
      rw [hlc] at h
      dsimp only at h
      by_cases herr : errors.length > 0
      · rw [if_pos herr] at h
        injection h with h'
        subst h'
        intro rec hrec
        simp only [List.mem_singleton] at hrec
        subst hrec
        exact ⟨by simp, by simp, Or.inl rfl⟩
      · rw [if_neg herr] at h
        cases hscan : scanFiles projectPath config w.tree with
        | error e => rw [hscan] at h; simp at h
        | ok files =>
          rw [hscan] at h
          cases hlr : loadLanguageRules config with
          | error e => rw [hlr] at h; simp at h
          | ok langRules =>
            rw [hlr] at h
            injection h with h'
            subst h'
            intro rec hrec
            refine runRules_wf _ ?_ rec hrec
            intro p hp
            rw [List.mem_map] at hp
            obtain ⟨rule, hrule, hpeq⟩ := hp
            subst hpeq
            rcases List.mem_append.mp hrule with hmem | hmem
            · exact universalRules_wf rule hmem
            · exact loadLanguageRules_wf config langRules hlr rule hmem
  · intro r ws
    cases ws with
    | none => rfl
    | some w' =>
      by_cases hw : w'.length > 0 <;> simp [entriesFor, hw]

theorem validate_results_well_formed_witness :
    (⟨"config-load", "Configuration loading", "error",
        [{ message := "aocs.json not found at p/aocs.json" }]⟩ : ResultRecord).id ≠ "" ∧
      (⟨"config-load", "Configuration loading", "error",
        [{ message := "aocs.json not found at p/aocs.json" }]⟩ : ResultRecord).name ≠ "" ∧
      ((⟨"config-load", "Configuration loading", "error",
        [{ message := "aocs.json not found at p/aocs.json" }]⟩ : ResultRecord).level = "error" ∨
       (⟨"config-load", "Configuration loading", "error",
        [{ message := "aocs.json not found at p/aocs.json" }]⟩ : ResultRecord).level = "warn") := by
  have h := validate_results_well_formed "p" {}
    ⟨RawContract.missing, FsEntries.nil, fun _ => CheckResult.ok none none⟩
    ⟨0, 1, 0, [⟨"config-load", "Configuration loading", "error",
      [{ message := "aocs.json not found at p/aocs.json" }]⟩]⟩ rfl
  exact h.1 _ (by simp)

/-! Lemmas for the forbidden-pattern check (claim C10). -/

theorem patternViolationsAux_mem (relFile : String) (ck : Checker) :
    ∀ (lines : List String) (n i : Nat) (line : String),
      lines[i]? = some line → isCommentLine line = false → ck.pattern line = true →
      (⟨some relFile, some (n + i), ck.message⟩ : Violation) ∈
        patternViolationsAux relFile ck n lines := by
  intro lines
  induction lines with
  | nil => intro n i line h; simp at h
  | cons l ls ih =>
    intro n i line hget hcom hpat
    cases i with
    | zero =>
      rw [List.getElem?_cons_zero] at hget
      injection hget with hget
      subst hget
      simp [patternViolationsAux, hcom, hpat]
    | succ j =>
      rw [List.getElem?_cons_succ] at hget
      have hmem := ih (n + 1) j line hget hcom hpat
      have harith : n + (j + 1) = n + 1 + j := by omega
      rw [patternViolationsAux, harith]
      exact List.mem_append_right _ hmem

/-- A warning created for a forbidden-pattern name with no checker. -/
def noCheckerWarning (w : Violation) : Prop :=
  ∃ p, w.message = "No checker for forbidden pattern: " ++ p

theorem processPattern_viol_prefix (relFile : String) (lines : List String)
    (st : List Violation × List Violation) (pat : String) :
    ∃ ext, (processPattern relFile lines st pat).1 = st.1 ++ ext := by
  unfold processPattern
  cases patternCheckers.lookup pat with
  | none =>
    dsimp only
    split
    · exact ⟨[], by simp⟩
    · exact ⟨[], by simp⟩
  | some ck => exact ⟨patternViolations relFile ck lines, rfl⟩

theorem processPattern_warnings (relFile : String) (lines : List String)
    (st : List Violation × List Violation) (pat : String)
    (hw : ∀ w ∈ st.2, noCheckerWarning w) :
    ∀ w ∈ (processPattern relFile lines st pat).2, noCheckerWarning w := by
  unfold processPattern
  cases patternCheckers.lookup pat with
  | none =>
    dsimp only
    split
    · exact hw
    · intro w hwmem
      rcases List.mem_append.mp hwmem with hmem | hmem
      · exact hw w hmem
      · rw [List.mem_singleton] at hmem
        subst hmem
        exact ⟨pat, rfl⟩
  | some ck => exact hw

theorem foldl_processPattern_viol_prefix (relFile : String) (lines : List String)
    (fps : List String) :
    ∀ st : List Violation × List Violation,
      ∃ ext, (fps.foldl (processPattern relFile lines) st).1 = st.1 ++ ext := by
  induction fps with
  | nil => intro st; exact ⟨[], by simp⟩
  | cons p ps ih =>
    intro st
    obtain ⟨e1, he1⟩ := processPattern_viol_prefix relFile lines st p
    obtain ⟨e2, he2⟩ := ih (processPattern relFile lines st p)
    exact ⟨e1 ++ e2, by rw [List.foldl_cons, he2, he1, List.append_assoc]⟩

theorem foldl_processPattern_warnings (relFile : String) (lines : List String)
    (fps : List String) :
    ∀ st : List Violation × List Violation, (∀ w ∈ st.2, noCheckerWarning w) →
      ∀ w ∈ (fps.foldl (processPattern relFile lines) st).2, noCheckerWarning w := by
  induction fps with
  | nil => intro st hw; exact hw
  | cons p ps ih =>
    intro st hw
    exact ih _ (processPattern_warnings relFile lines st p hw)

theorem foldl_processPattern_mem (relFile : String) (lines : List String)
    (fps : List String) (st : List Violation × List Violation) (v : Violation)
    (hv : v ∈ st.1) : v ∈ (fps.foldl (processPattern relFile lines) st).1 := by
  obtain ⟨ext, hext⟩ := foldl_processPattern_viol_prefix relFile lines fps st
  rw [hext]
  exact List.mem_append_left _ hv

theorem processFile_viol_prefix (pp : String) (fps : List String)
    (readF : String → Option String) (st : List Violation × List Violation)
    (file : String) :
    ∃ ext, (processFile pp fps readF st file).1 = st.1 ++ ext := by
  unfold processFile
  cases readF file with
  | none => exact ⟨[], by simp⟩
  | some content => exact foldl_processPattern_viol_prefix _ _ fps st

theorem processFile_warnings (pp : String) (fps : List String)
    (readF : String → Option String) (st : List Violation × List Violation)
    (file : String) (hw : ∀ w ∈ st.2, noCheckerWarning w) :
    ∀ w ∈ (processFile pp fps readF st file).2, noCheckerWarning w := by
  unfold processFile
  cases readF file with
  | none => exact hw
  | some content => exact foldl_processPattern_warnings _ _ fps st hw

theorem foldl_processFile_mem (pp : String) (fps : List String)
    (readF : String → Option String) (files : List String)
    (st : List Violation × List Violation) (v : Violation) (hv : v ∈ st.1) :
    v ∈ (files.foldl (processFile pp fps readF) st).1 := by
  induction files generalizing st with
  | nil => exact hv
  | cons f fs ih =>
    rw [List.foldl_cons]
    refine ih _ ?_
    obtain ⟨ext, hext⟩ := processFile_viol_prefix pp fps readF st f
    rw [hext]
    exact List.mem_append_left _ hv

theorem foldl_processFile_warnings (pp : String) (fps : List String)
    (readF : String → Option String) (files : List String) :
    ∀ st : List Violation × List Violation, (∀ w ∈ st.2, noCheckerWarning w) →
      ∀ w ∈ (files.foldl (processFile pp fps readF) st).2, noCheckerWarning w := by
  induction files with
  | nil => intro st hw; exact hw
  | cons f fs ih =>
    intro st hw
    exact ih _ (processFile_warnings pp fps readF st f hw)

/-- The implicit-global entry of the patternCheckers table. -/
theorem patternCheckers_implicit_global :
    patternCheckers.lookup "implicit-global" =
      some ⟨matchesImplicitGlobal,
        "Possible implicit global assignment (use const/let/var)", true⟩ := rfl

/-- Claim C10: when implicit-global is among the declared forbidden
patterns, every non-comment line of a scanned script file matching the
implicit-global pattern contributes its violation to the violations
list of checkForbidden — which surfaces under the error-level
U12-forbidden rule — while the warnings list of the check only ever
holds no-checker messages: the warn flag of the implicit-global checker
entry is never honoured. -/
theorem implicit_global_is_violation (projectPath : String) (fps : List String)
    (files : List String) (readFileF : String → Option String)
    (f content line : String) (i : Nat)
    (hfp : "implicit-global" ∈ fps) (hf : f ∈ files)
    (hext : jsExtensions.contains (extname f) = true)
    (hread : readFileF f = some content)
    (hline : (splitLines content.toList)[i]? = some line)
    (hcomment : isCommentLine line = false)
    (hmatch : matchesImplicitGlobal line = true) :
    (⟨some (relativeTo projectPath f), some (i + 1),
      "Possible implicit global assignment (use const/let/var)"⟩ : Violation) ∈
        (checkForbidden projectPath (some fps) files readFileF).1 ∧
    (∀ w ∈ (checkForbidden projectPath (some fps) files readFileF).2,
      ∃ p, w.message = "No checker for forbidden pattern: " ++ p) ∧
    (⟨"U12-forbidden", "Forbidden patterns not present", "error"⟩ : Rule) ∈ universalRules := by
  have hjs : f ∈ files.filter (fun g => jsExtensions.contains (extname g)) :=
    List.mem_filter.mpr ⟨hf, hext⟩
  refine ⟨?_, ?_, by decide⟩
  · unfold checkForbidden
    dsimp only
    obtain ⟨u, w', hsplit⟩ := List.append_of_mem hjs
    rw [hsplit, List.foldl_append, List.foldl_cons]
    apply foldl_processFile_mem
    unfold processFile
    rw [hread]
    dsimp only
    obtain ⟨a, b, hfps⟩ := List.append_of_mem hfp
    rw [hfps, List.foldl_append, List.foldl_cons]
    apply foldl_processPattern_mem
    unfold processPattern
    rw [patternCheckers_implicit_global]
    dsimp only
    apply List.mem_append_right
    have := patternViolationsAux_mem (relativeTo projectPath f)
      ⟨matchesImplicitGlobal, "Possible implicit global assignment (use const/let/var)", true⟩
      (splitLines content.toList) 1 i line hline hcomment hmatch
    rw [show (1 : Nat) + i = i + 1 from Nat.add_comm 1 i] at this
    exact this
  · intro w hw
    unfold checkForbidden at hw
    dsimp only at hw
    exact foldl_processFile_warnings projectPath fps readFileF _ ([], [])
      (by simp) w hw

theorem implicit_global_is_violation_witness :
    ("implicit-global" ∈ ["implicit-global"]) ∧
    ("p/a.js" ∈ ["p/a.js"]) ∧
    jsExtensions.contains (extname "p/a.js") = true ∧
    isCommentLine "x = 5" = false ∧
    matchesImplicitGlobal "x = 5" = true ∧
    (⟨some "a.js", some 1,
      "Possible implicit global assignment (use const/let/var)"⟩ : Violation) ∈
        (checkForbidden "p" (some ["implicit-global"]) ["p/a.js"]
          (fun g => if g = "p/a.js" then some "x = 5" else none)).1 := by
  refine ⟨by simp, by simp, rfl, rfl, rfl, ?_⟩
  have h := implicit_global_is_violation "p" ["implicit-global"] ["p/a.js"]
    (fun g => if g = "p/a.js" then some "x = 5" else none) "p/a.js" "x = 5" "x = 5" 0
    (by simp) (by simp) rfl rfl rfl rfl rfl
  simpa using h.1

end Aocs
